import Mathlib

/-!
# allmark: content indexer, folder watcher and full-text search

A shallow embedding of

* `src/indexer/index.go` (`findAllItems`, `isMarkdownFile`, `getChildItems`),
* `src/watcher/folder.go` (`NewFolderWatcher`, the scan loop of `Start`, `getFolderEntries`),
* `src/services/search/fulltextindex.go` (`Update`, `getContent`, `Search`),

followed by the properties proved about them.

The file system is a static tree of entries.  A path is a string; the entry a path
refers to is passed next to the path, so that `ioutil.ReadDir(path)` becomes `ReadDir node`.
-/

set_option linter.unusedVariables false

namespace fs

/-- The part of `os.FileInfo` the code can observe on a directory entry. -/
structure FileInfo where
  Name : String
  Size : Nat
  Mode : Nat
  IsDir : Bool
deriving DecidableEq, Repr

/-- A file system object: its `FileInfo`, whether listing it succeeds when it is a
directory, and the entries below it, in the order `ioutil.ReadDir` reports them. -/
inductive FsEntry where
  | mk (info : FileInfo) (readable : Bool) (entries : List FsEntry)

/-- The `os.FileInfo` of an entry. -/
def FsEntry.info : FsEntry → FileInfo
  | .mk fi _ _ => fi

/-- The entries stored below an entry. -/
def FsEntry.entries : FsEntry → List FsEntry
  | .mk _ _ es => es

/-- Method `Name()` of `os.FileInfo`. -/
def FsEntry.Name (e : FsEntry) : String := e.info.Name

/-- Method `IsDir()` of `os.FileInfo`. -/
def FsEntry.IsDir (e : FsEntry) : Bool := e.info.IsDir

/-- Go `ioutil.ReadDir`: the listing of a readable directory, an error for anything else. -/
def ReadDir : FsEntry → Except String (List FsEntry)
  | .mk fi readable entries =>
    if fi.IsDir && readable then .ok entries else .error ("open " ++ fi.Name)

/-- Go `filepath.Join(dir, name)` where `dir` is the clean path of a directory, other than
the root of the file system and the current directory, and `name` is the name of one of its
entries: the two parts separated by one slash. -/
def filepathJoin (dir name : String) : String := dir ++ "/" ++ name

/-- The backwards scan of Go `filepath.Ext`: the characters are visited from the end of the
path; the scan stops without a result at a separator and returns the suffix at the first dot. -/
def extScan : List Char → List Char → List Char
  | [], _ => []
  | c :: before, suffix =>
    if c = '/' then []
    else if c = '.' then c :: suffix
    else extScan before (c :: suffix)

/-- Go `filepath.Ext`: the suffix starting at the last dot of the last path element. -/
def filepathExt (path : String) : String := ⟨extScan path.data.reverse []⟩

/-- Go `strings.ToLower`, on the letters that matter for comparing with `.md`. -/
def stringsToLower (s : String) : String := ⟨s.data.map Char.toLower⟩

/-- A regular file with the given name. -/
def mkFile (name : String) : FsEntry := .mk ⟨name, 0, 0, false⟩ true []

/-- A readable directory with the given name and entries. -/
def mkDir (name : String) (entries : List FsEntry) : FsEntry := .mk ⟨name, 0, 0, true⟩ true entries

/-- A directory whose listing fails. -/
def mkLockedDir (name : String) (entries : List FsEntry) : FsEntry :=
  .mk ⟨name, 0, 0, true⟩ false entries

/-- A chain of entries below a listing: the first entry is in the listing, every further
entry is stored below the one before it. -/
inductive IsChain : List FsEntry → List FsEntry → Prop where
  | single {listing : List FsEntry} {e : FsEntry} : e ∈ listing → IsChain listing [e]
  | cons {listing : List FsEntry} {e : FsEntry} {chain : List FsEntry} :
      e ∈ listing → IsChain e.entries chain → IsChain listing (e :: chain)

/-- The path of the last entry of a chain that starts in the listing of `root`. -/
def pathOf (root : String) (chain : List FsEntry) : String :=
  chain.foldl (fun p e => filepathJoin p e.Name) root

/-- The characters a chain adds to the path of the root: a separator and the name, for
every entry of the chain. -/
def pathSegments (chain : List FsEntry) : List Char :=
  chain.flatMap (fun e => '/' :: e.Name.data)

mutual
/-- Names in a tree are well formed: no name contains a separator and the names of the
entries of one directory are pairwise different. -/
def wellFormed : FsEntry → Bool
  | .mk _ _ es => wellFormedList es && decide ((es.map FsEntry.Name).Nodup)
/-- Every entry of the list is well formed and has a name without separator. -/
def wellFormedList : List FsEntry → Bool
  | [] => true
  | e :: rest => decide ('/' ∉ e.Name.data) && wellFormed e && wellFormedList rest
end

end fs

namespace indexer
open fs

/-- Function `isMarkdownFile` of index.go. -/
def isMarkdownFile (absoluteFilePath : String) : Bool :=
  let fileExtension := stringsToLower (filepathExt absoluteFilePath)
  fileExtension == ".md"

section
variable {Item : Type} (NewItem : String → List Item → Except String Item)

/-- The item search loop of `findAllItems` (index.go lines 65-90): the item found, if any.
`childs` is the value of `getChildItems(repositoryPath)`. -/
def itemSearch (repositoryPath : String) (childs : List Item) : List FsEntry → Option Item
  | [] => none
  | element :: rest =>
    let itemPath := filepathJoin repositoryPath element.Name
    if !isMarkdownFile itemPath then itemSearch repositoryPath childs rest
    else
      match NewItem itemPath childs with
      | .error _ => itemSearch repositoryPath childs rest
      | .ok item => some item

mutual
/-- Function `findAllItems` of index.go; `node` is what `repositoryPath` refers to. -/
def findAllItems (repositoryPath : String) (node : FsEntry) : List Item :=
  match ReadDir node with
  | .error _ => []
  | .ok directoryEntries =>
    match itemSearch NewItem repositoryPath (getChildItems repositoryPath node)
        directoryEntries with
    | some item => [item]
    | none => getChildItems repositoryPath node
termination_by (sizeOf node, 1)
decreasing_by
  all_goals exact Prod.Lex.right _ Nat.zero_lt_one
/-- Function `getChildItems` of index.go; a failing `ReadDir` leaves `files` empty. -/
def getChildItems (itemPath : String) (node : FsEntry) : List Item :=
  match node with
  | .mk fi readable files =>
    if fi.IsDir && readable then getChildItemsLoop itemPath files else []
termination_by (sizeOf node, 0)
decreasing_by
  all_goals simp_wf
  all_goals (apply Prod.Lex.left; omega)
/-- The loop of `getChildItems` over the listing. -/
def getChildItemsLoop (itemPath : String) (files : List FsEntry) : List Item :=
  match files with
  | [] => []
  | element :: rest =>
    if element.IsDir then
      findAllItems (filepathJoin itemPath element.Name) element ++ getChildItemsLoop itemPath rest
    else getChildItemsLoop itemPath rest
termination_by (sizeOf files, 0)
decreasing_by
  all_goals simp_wf
  all_goals (apply Prod.Lex.left; omega)
end

end

/-- An item that records the arguments its constructor was called with. -/
inductive PathItem where
  | mk (path : String) (childs : List PathItem)

/-- An item constructor that always succeeds. -/
def okItem (itemPath : String) (childs : List PathItem) : Except String PathItem :=
  .ok (.mk itemPath childs)

/-- An item constructor that fails on one path and succeeds on every other. -/
def failOn (bad : String) (itemPath : String) (childs : List PathItem) : Except String PathItem :=
  if itemPath = bad then .error "cannot create item" else .ok (.mk itemPath childs)

/-- The directory r with a.md, b.md and the directory x that holds c.md. -/
def dirTwoSources : FsEntry :=
  mkDir "r" [mkFile "a.md", mkFile "b.md", mkDir "x" [mkFile "c.md"]]

/-- The directory r with a.md, notes.txt and the directory x that holds c.md. -/
def dirOneSource : FsEntry :=
  mkDir "r" [mkFile "a.md", mkFile "notes.txt", mkDir "x" [mkFile "c.md"]]

end indexer

namespace watcher
open fs

/-- Struct `FolderChange` of folder.go; the time stamp is a clock reading. -/
structure FolderChange where
  timeStamp : Nat
  newItems : List String
  movedItems : List String
deriving DecidableEq, Repr

/-- Function `newFolderChange` of folder.go; `now` is the value of `time.Now()`. -/
def newFolderChange (now : Nat) (newItems : List String) (movedItems : List String) :
    FolderChange :=
  { timeStamp := now, newItems := newItems, movedItems := movedItems }

/-- Method `New` of `FolderChange`. -/
def FolderChange.New (folderChange : FolderChange) : List String := folderChange.newItems

/-- Method `Moved` of `FolderChange`. -/
def FolderChange.Moved (folderChange : FolderChange) : List String := folderChange.movedItems

/-- Struct `FolderWatcher` of folder.go.  The channel `Change` is not a field here: what is
sent on it is recorded in `LoopState.Change`. -/
structure FolderWatcher where
  recurse : Bool
  skipFile : FileInfo → Bool
  debug : Bool
  folder : String
  running : Bool

/-- Function `NewFolderWatcher` of folder.go. -/
def NewFolderWatcher (folderPath : String) (recurse : Bool) (skipFile : FileInfo → Bool) :
    FolderWatcher :=
  { recurse := true
    skipFile := skipFile
    debug := true
    folder := folderPath
    running := false }

mutual
/-- Function `getFolderEntries` of folder.go; `node` is what `directory` refers to.  The
listing fails unless `node` is a readable directory, and then the result is empty. -/
def getFolderEntries (directory : String) (recurse : Bool) (skipFile : FileInfo → Bool) :
    FsEntry → List String
  | .mk fi readable directoryEntries =>
    if !(fi.IsDir && readable) then []
    else getFolderEntriesLoop directory recurse skipFile directoryEntries
/-- The loop of `getFolderEntries` over the listing. -/
def getFolderEntriesLoop (directory : String) (recurse : Bool) (skipFile : FileInfo → Bool) :
    List FsEntry → List String
  | [] => []
  | entry :: rest =>
    if skipFile entry.info then getFolderEntriesLoop directory recurse skipFile rest
    else
      let subEntry := filepathJoin directory entry.Name
      if recurse && entry.IsDir then
        getFolderEntries subEntry recurse skipFile entry
          ++ getFolderEntriesLoop directory recurse skipFile rest
      else subEntry :: getFolderEntriesLoop directory recurse skipFile rest
end

/-- Modelled from the spec: `util.SliceContainsElement` is not among the sources; the spec
speaks of paths present in a snapshot, so this is membership of the element in the slice. -/
def SliceContainsElement (list : List String) (elem : String) : Bool :=
  match list with
  | [] => false
  | entry :: rest => if entry = elem then true else SliceContainsElement rest elem

/-- The variables of the scan loop of `Start`: the stored snapshot and the folder changes
handed to the channel `Change` so far, in scan order. -/
structure LoopState where
  existingEntries : List String
  Change : List FolderChange
deriving DecidableEq, Repr

/-- The body of the scan loop of `Start` after `newEntries` was taken (folder.go lines 91-119). -/
def compareEntries (now : Nat) (newEntries : List String) (st : LoopState) : LoopState :=
  let newItems := newEntries.foldl
    (fun newItems newEntry =>
      let isNewItem := !SliceContainsElement st.existingEntries newEntry
      if isNewItem then newItems ++ [newEntry] else newItems) []
  let movedItems := st.existingEntries.foldl
    (fun movedItems existingEntry =>
      let isMoved := !SliceContainsElement newEntries existingEntry
      if isMoved then movedItems ++ [existingEntry] else movedItems) []
  if newItems.length > 0 || movedItems.length > 0 then
    { existingEntries := newEntries
      Change := st.Change ++ [newFolderChange now newItems movedItems] }
  else
    { existingEntries := newEntries, Change := st.Change }

/-- One pass of the scan loop of `Start` (folder.go lines 88-119): `node` is what the watched
folder refers to when the pass lists it, `now` the clock reading of the pass. -/
def scanCycle (folderWatcher : FolderWatcher) (now : Nat) (node : FsEntry) (st : LoopState) :
    LoopState :=
  let directory := folderWatcher.folder
  let newEntries := getFolderEntries directory folderWatcher.recurse folderWatcher.skipFile node
  compareEntries now newEntries st

/-- Method `Start` of `FolderWatcher`: the first listing is the baseline, then one pass per
observation of the folder made while the watcher is running. -/
def Start (folderWatcher : FolderWatcher) (first : FsEntry) (passes : List (Nat × FsEntry)) :
    LoopState :=
  let directory := folderWatcher.folder
  let existingEntries :=
    getFolderEntries directory folderWatcher.recurse folderWatcher.skipFile first
  passes.foldl (fun st pass => scanCycle folderWatcher pass.1 pass.2 st)
    { existingEntries := existingEntries, Change := [] }

/-- One directory with an empty contribution is added: `after` is `before` with one more
directory, none of whose descendants other than directories is kept by `skipFile`, put
into the listing of the root or of a directory below it. -/
inductive AddsBarrenDir (skipFile : FileInfo → Bool) : FsEntry → FsEntry → Prop where
  | atListing (fi : FileInfo) (readable : Bool) (l1 l2 : List FsEntry) (d : FsEntry) :
      d.IsDir = true →
      (∀ chain e, IsChain d.entries chain → chain.getLast? = some e → e.IsDir = false →
        skipFile e.info = true) →
      AddsBarrenDir skipFile (.mk fi readable (l1 ++ l2)) (.mk fi readable (l1 ++ d :: l2))
  | inside (fi : FileInfo) (readable : Bool) (l1 l2 : List FsEntry) (e e2 : FsEntry) :
      AddsBarrenDir skipFile e e2 →
      AddsBarrenDir skipFile (.mk fi readable (l1 ++ e :: l2)) (.mk fi readable (l1 ++ e2 :: l2))

/-- What is known about a chain of entries that led to a returned path: no entry of the chain
is skipped, and in a recursive listing the last entry is not a directory. -/
def Kept (recurse : Bool) (skipFile : FileInfo → Bool) (chain : List FsEntry) : Prop :=
  (∀ e ∈ chain, skipFile e.info = false)
    ∧ (recurse = true → ∃ e, chain.getLast? = some e ∧ e.IsDir = false)

/-- A skip predicate that excludes the entries named .git. -/
def skipGit (fi : FileInfo) : Bool := fi.Name == ".git"

/-- The directory r with the file a, the directory .git that holds config and the directory
sub that holds b. -/
def watchedTree : FsEntry :=
  mkDir "r" [mkFile "a", mkDir ".git" [mkFile "config"], mkDir "sub" [mkFile "b"]]

end watcher

namespace search

/-- The fields and the route of `model.Item` that the full-text index reads. -/
structure Item (R : Type) where
  Route : R
  Title : String
  Description : String
  Content : String

/-- The two methods of `index.ItemIndex` the full-text index calls. -/
structure ItemIndex (R : Type) where
  Items : List (Item R)
  IsMatch : R → Option (Item R)

/-- Struct `fulltext.IndexDoc`. -/
structure IndexDoc where
  Id : String
  StoreValue : String
  IndexValue : String
deriving DecidableEq, Repr

/-- One hit of `fulltext.SearchResults.Items`. -/
structure SearchResultItem where
  Id : String
  StoreValue : String
  Score : Int
deriving DecidableEq, Repr

/-- Struct `SearchResult` of the search package. -/
structure SearchResult (R : Type) where
  Score : Int
  StoreValue : String
  Item : Item R

/-- Struct `FullTextIndex` of fulltextindex.go. -/
structure FullTextIndex (R : Type) where
  itemIndex : ItemIndex R
  filepath : String

/-- Go `strings.Join`. -/
def stringsJoin (elems : List String) (sep : String) : String :=
  match elems with
  | [] => ""
  | first :: rest => rest.foldl (fun joined e => joined ++ sep ++ e) first

section
variable {R : Type} (Value : R → String) (Components : R → List String)

/-- Function `getContent` of fulltextindex.go. -/
def getContent (item : Item R) : String :=
  let content := item.Title
  let content := content ++ (" " ++ item.Description)
  let content := content ++ (" " ++ stringsJoin (Components item.Route) " ")
  let content := content ++ (" " ++ item.Content)
  content

/-- The document `Update` builds for one item. -/
def indexDoc (item : Item R) : IndexDoc :=
  { Id := Value item.Route
    StoreValue := item.Title
    IndexValue := getContent Components item }

/-- Method `Update` of `FullTextIndex`: the documents added to the indexer with `AddDoc`, in
order; these are what `FinalizeAndWrite` writes out. -/
def Update (index : FullTextIndex R) : List IndexDoc :=
  index.itemIndex.Items.foldl (fun idx item => idx ++ [indexDoc Value Components item]) []

end

section
variable {R S : Type} (NewFromRequest : String → Except String R)
  (NewSearcher : String → Except String S)
  (SimpleSearch : S → String → Int → Except String (List SearchResultItem))

/-- The loop of `Search` over the hits (fulltextindex.go lines 101-117). -/
def collectResults (index : FullTextIndex R) (hits : List SearchResultItem) :
    List (SearchResult R) :=
  hits.foldl
    (fun searchResults v =>
      match NewFromRequest v.Id with
      | .error _ => searchResults
      | .ok route =>
        match index.itemIndex.IsMatch route with
        | some item =>
          searchResults ++ [{ Score := v.Score, StoreValue := v.StoreValue, Item := item }]
        | none => searchResults) []

/-- Method `Search` of `FullTextIndex`; an error stands for the panic of the code. -/
def Search (index : FullTextIndex R) (keyword : String) (maxiumNumberOfResults : Int) :
    Except String (List (SearchResult R)) :=
  match NewSearcher index.filepath with
  | .error err => .error err
  | .ok searcher =>
    match SimpleSearch searcher keyword maxiumNumberOfResults with
    | .error err => .error err
    | .ok hits => .ok (collectResults NewFromRequest index hits)

end

section
variable {R : Type} (NewFromRequest : String → Except String R)

/-- What `Search` makes of one hit, said directly: the result for a hit whose id parses as a
route that the item index resolves, nothing for any other hit. -/
def resolveHit (index : FullTextIndex R) (v : SearchResultItem) : Option (SearchResult R) :=
  match NewFromRequest v.Id with
  | .error _ => none
  | .ok route =>
    (index.itemIndex.IsMatch route).map
      (fun item => { Score := v.Score, StoreValue := v.StoreValue, Item := item })

end

/-- The item with route /a, title A and content foo. -/
def itemA : Item String := { Route := "/a", Title := "A", Description := "", Content := "foo" }

/-- A full-text index over an item index that holds `itemA` only. -/
def indexA : FullTextIndex String :=
  { itemIndex := { Items := [itemA], IsMatch := fun r => if r = "/a" then some itemA else none }
    filepath := "/tmp/allmark-fulltext-search-index" }

/-- A route constructor that rejects the empty request. -/
def routeFromRequest (request : String) : Except String String :=
  if request = "" then .error "empty route" else .ok request

/-- Three hits: one that resolves, one whose item is gone, one whose id is no route. -/
def hitsA : List SearchResultItem :=
  [{ Id := "/a", StoreValue := "A", Score := 9 }, { Id := "/gone", StoreValue := "G", Score := 5 },
   { Id := "", StoreValue := "", Score := 1 }]

/-- The item with route docs/intro, title Intro, description First steps and content Hello;
a route is the list of its components. -/
def itemIntro : Item (List String) :=
  { Route := ["docs", "intro"], Title := "Intro", Description := "First steps",
    Content := "Hello" }

/-- A full-text index over an item index that holds `itemIntro` and `itemIntro` again with
an empty route. -/
def indexIntro : FullTextIndex (List String) :=
  { itemIndex :=
      { Items := [itemIntro, { itemIntro with Route := [], Title := "Home" }]
        IsMatch := fun _ => none }
    filepath := "/tmp/allmark-fulltext-search-index" }

end search

/-! ## Paths and chains of entries -/

namespace fs

theorem filepathJoin_data (dir name : String) :
    (filepathJoin dir name).data = dir.data ++ '/' :: name.data := by
  simp [filepathJoin, String.data_append]

theorem pathOf_cons (root : String) (e : FsEntry) (chain : List FsEntry) :
    pathOf root (e :: chain) = pathOf (filepathJoin root e.Name) chain := rfl

theorem pathOf_data (root : String) (chain : List FsEntry) :
    (pathOf root chain).data = root.data ++ pathSegments chain := by
  induction chain generalizing root with
  | nil => simp [pathOf, pathSegments]
  | cons e rest ih =>
    rw [pathOf_cons, ih, filepathJoin_data]
    simp [pathSegments, List.flatMap_cons]

theorem isChain_cons_iff (l : List FsEntry) (e : FsEntry) (c : List FsEntry) :
    IsChain l (e :: c) ↔ e ∈ l ∧ (c = [] ∨ IsChain e.entries c) := by
  constructor
  · intro h
    cases h with
    | single hm => exact ⟨hm, Or.inl rfl⟩
    | cons hm hc => exact ⟨hm, Or.inr hc⟩
  · rintro ⟨hm, hc | hc⟩
    · subst hc
      exact IsChain.single hm
    · exact IsChain.cons hm hc

theorem isChain_mono {l l2 c : List FsEntry} (h : IsChain l c) (hsub : ∀ e ∈ l, e ∈ l2) :
    IsChain l2 c := by
  cases h with
  | single hm => exact IsChain.single (hsub _ hm)
  | cons hm hc => exact IsChain.cons (hsub _ hm) hc

theorem segment_split (a : List Char) :
    ∀ (b x y : List Char), '/' ∉ a → '/' ∉ b →
      (x = [] ∨ ∃ t, x = '/' :: t) → (y = [] ∨ ∃ t, y = '/' :: t) →
      a ++ x = b ++ y → a = b ∧ x = y := by
  induction a with
  | nil =>
    intro b x y _ hb hx hy h
    cases b with
    | nil => exact ⟨rfl, by simpa using h⟩
    | cons d b2 =>
      exfalso
      rcases hx with hx | ⟨t, hx⟩
      · subst hx; simp at h
      · subst hx
        simp only [List.nil_append, List.cons_append, List.cons.injEq] at h
        exact hb (by rw [← h.1]; exact List.mem_cons_self _ _)
  | cons c a2 ih =>
    intro b x y ha hb hx hy h
    cases b with
    | nil =>
      exfalso
      rcases hy with hy | ⟨t, hy⟩
      · subst hy; simp at h
      · subst hy
        simp only [List.nil_append, List.cons_append, List.cons.injEq] at h
        exact ha (by rw [h.1]; exact List.mem_cons_self _ _)
    | cons d b2 =>
      simp only [List.cons_append, List.cons.injEq] at h
      have ha2 : '/' ∉ a2 := fun hm => ha (List.mem_cons_of_mem _ hm)
      have hb2 : '/' ∉ b2 := fun hm => hb (List.mem_cons_of_mem _ hm)
      obtain ⟨h1, h2⟩ := ih b2 x y ha2 hb2 hx hy h.2
      exact ⟨by rw [h.1, h1], h2⟩

theorem pathSegments_shape (c : List FsEntry) :
    pathSegments c = [] ∨ ∃ t, pathSegments c = '/' :: t := by
  cases c with
  | nil => exact Or.inl rfl
  | cons e rest => exact Or.inr ⟨e.Name.data ++ pathSegments rest, by simp [pathSegments, List.flatMap_cons]⟩

theorem wellFormedList_mem {l : List FsEntry} (h : wellFormedList l = true) {e : FsEntry}
    (he : e ∈ l) : '/' ∉ e.Name.data ∧ wellFormed e = true := by
  induction l with
  | nil => simp at he
  | cons x rest ih =>
    simp only [wellFormedList, Bool.and_eq_true, decide_eq_true_eq] at h
    rcases List.mem_cons.mp he with hx | hx
    · subst hx
      exact ⟨h.1.1, h.1.2⟩
    · exact ih h.2 hx

theorem wellFormed_entries {e : FsEntry} (h : wellFormed e = true) :
    wellFormedList e.entries = true ∧ (e.entries.map FsEntry.Name).Nodup := by
  cases e with
  | mk fi r es =>
    simp only [wellFormed, Bool.and_eq_true, decide_eq_true_eq] at h
    exact h

theorem name_inj {l : List FsEntry} (hnd : (l.map FsEntry.Name).Nodup) {e1 e2 : FsEntry}
    (h1 : e1 ∈ l) (h2 : e2 ∈ l) (hn : e1.Name = e2.Name) : e1 = e2 :=
  List.inj_on_of_nodup_map hnd h1 h2 hn

theorem chain_inj (c1 : List FsEntry) :
    ∀ (l c2 : List FsEntry), (l.map FsEntry.Name).Nodup → wellFormedList l = true →
      (c1 = [] ∨ IsChain l c1) → (c2 = [] ∨ IsChain l c2) →
      pathSegments c1 = pathSegments c2 → c1 = c2 := by
  induction c1 with
  | nil =>
    intro l c2 _ _ _ _ h
    cases c2 with
    | nil => rfl
    | cons e rest => simp [pathSegments, List.flatMap_cons] at h
  | cons e1 r1 ih =>
    intro l c2 hnd hwf h1 h2 h
    cases c2 with
    | nil => simp [pathSegments, List.flatMap_cons] at h
    | cons e2 r2 =>
      have h1c : IsChain l (e1 :: r1) := h1.resolve_left (by simp)
      have h2c : IsChain l (e2 :: r2) := h2.resolve_left (by simp)
      obtain ⟨hm1, ht1⟩ := (isChain_cons_iff l e1 r1).mp h1c
      obtain ⟨hm2, ht2⟩ := (isChain_cons_iff l e2 r2).mp h2c
      obtain ⟨hs1, hw1⟩ := wellFormedList_mem hwf hm1
      obtain ⟨hs2, _⟩ := wellFormedList_mem hwf hm2
      have h3 : e1.Name.data ++ pathSegments r1 = e2.Name.data ++ pathSegments r2 := by
        simpa [pathSegments, List.flatMap_cons] using h
      obtain ⟨hn, hr⟩ := segment_split _ _ _ _ hs1 hs2 (pathSegments_shape r1)
        (pathSegments_shape r2) h3
      have hname : e1.Name = e2.Name := String.ext hn
      have he : e1 = e2 := name_inj hnd hm1 hm2 hname
      subst he
      obtain ⟨hwl, hnd2⟩ := wellFormed_entries hw1
      rw [ih e1.entries r2 hnd2 hwl ht1 ht2 hr]

/-- In a listing with well formed names two chains with the same path are the same chain. -/
theorem pathOf_inj (root : String) (l c1 c2 : List FsEntry)
    (hnd : (l.map FsEntry.Name).Nodup) (hwf : wellFormedList l = true)
    (h1 : IsChain l c1) (h2 : IsChain l c2) (h : pathOf root c1 = pathOf root c2) : c1 = c2 := by
  have hd : (pathOf root c1).data = (pathOf root c2).data := by rw [h]
  rw [pathOf_data, pathOf_data] at hd
  exact chain_inj c1 l c2 hnd hwf (Or.inr h1) (Or.inr h2) (List.append_cancel_left hd)

end fs

/-! ## The content indexer -/

namespace indexer
open fs

theorem extScan_separator (name rest suffix : List Char) (h : '/' ∉ name) :
    extScan (name ++ '/' :: rest) suffix = extScan name suffix := by
  induction name generalizing suffix with
  | nil => simp [extScan]
  | cons c cs ih =>
    have hc : c ≠ '/' := fun hc => h (by rw [hc]; exact List.mem_cons_self _ _)
    have hcs : '/' ∉ cs := fun hm => h (List.mem_cons_of_mem _ hm)
    simp only [List.cons_append, extScan, if_neg hc]
    split
    · rfl
    · exact ih _ hcs

/-- The test `isMarkdownFile` on the joined path of an entry looks at the name of the entry
only. -/
theorem isMarkdownFile_join (dir name : String) (h : '/' ∉ name.data) :
    isMarkdownFile (filepathJoin dir name) = isMarkdownFile name := by
  have hrev : '/' ∉ name.data.reverse := fun hm => h (List.mem_reverse.mp hm)
  simp only [isMarkdownFile, filepathExt, filepathJoin_data, List.reverse_append,
    List.reverse_cons, List.append_assoc, List.singleton_append,
    extScan_separator _ _ _ hrev]

section
variable {Item : Type} (NewItem : String → List Item → Except String Item)

theorem getChildItems_of_readDir (itemPath : String) (node : FsEntry) (files : List FsEntry)
    (h : ReadDir node = .ok files) :
    getChildItems NewItem itemPath node = getChildItemsLoop NewItem itemPath files := by
  cases node with
  | mk fi readable es =>
    rw [getChildItems]
    simp only [ReadDir] at h
    by_cases hc : (fi.IsDir && readable) = true
    · rw [if_pos hc] at h ⊢
      cases h
      rfl
    · rw [if_neg hc] at h
      cases h

/-- The loop of `getChildItems` concatenates `findAllItems` over the directories listed. -/
theorem getChildItemsLoop_eq_bind (itemPath : String) (files : List FsEntry) :
    getChildItemsLoop NewItem itemPath files
      = (files.filter FsEntry.IsDir).flatMap
          (fun S => findAllItems NewItem (filepathJoin itemPath S.Name) S) := by
  induction files with
  | nil => rw [getChildItemsLoop]; rfl
  | cons e rest ih =>
    rw [getChildItemsLoop]
    by_cases hd : e.IsDir = true
    · simp [hd, ih, List.filter_cons]
    · simp [hd, ih, List.filter_cons]

theorem itemSearch_skip (repositoryPath : String) (childs : List Item) (pre rest : List FsEntry)
    (hpre : ∀ x ∈ pre, isMarkdownFile (filepathJoin repositoryPath x.Name) = true →
      ∃ err, NewItem (filepathJoin repositoryPath x.Name) childs = .error err) :
    itemSearch NewItem repositoryPath childs (pre ++ rest)
      = itemSearch NewItem repositoryPath childs rest := by
  induction pre with
  | nil => rfl
  | cons x pre ih =>
    have ih2 := ih (fun y hy => hpre y (List.mem_cons_of_mem _ hy))
    simp only [List.cons_append, itemSearch]
    by_cases hm : isMarkdownFile (filepathJoin repositoryPath x.Name) = true
    · obtain ⟨err, herr⟩ := hpre x (List.mem_cons_self _ _) hm
      simp [hm, herr, ih2]
    · simp [hm, ih2]

theorem itemSearch_found (repositoryPath : String) (childs : List Item) (pre post : List FsEntry)
    (e : FsEntry) (item : Item)
    (hpre : ∀ x ∈ pre, isMarkdownFile (filepathJoin repositoryPath x.Name) = true →
      ∃ err, NewItem (filepathJoin repositoryPath x.Name) childs = .error err)
    (hmd : isMarkdownFile (filepathJoin repositoryPath e.Name) = true)
    (hnew : NewItem (filepathJoin repositoryPath e.Name) childs = .ok item) :
    itemSearch NewItem repositoryPath childs (pre ++ e :: post) = some item := by
  rw [itemSearch_skip NewItem repositoryPath childs pre (e :: post) hpre]
  simp [itemSearch, hmd, hnew]

theorem itemSearch_none (repositoryPath : String) (childs : List Item) (entries : List FsEntry)
    (hall : ∀ x ∈ entries, isMarkdownFile (filepathJoin repositoryPath x.Name) = true →
      ∃ err, NewItem (filepathJoin repositoryPath x.Name) childs = .error err) :
    itemSearch NewItem repositoryPath childs entries = none := by
  have := itemSearch_skip NewItem repositoryPath childs entries [] hall
  simpa [itemSearch] using this

/-- Claim C1: when the listing of directory D holds an entry with a markdown extension and
`NewItem` succeeds on the first such entry in listing order, called with the children
`getChildItems(D)`, then `findAllItems(D)` is exactly the one item built from that entry;
no later entry of D is used as a source. -/
theorem findAllItems_first_markdown (D : String) (node : FsEntry) (pre post : List FsEntry)
    (e : FsEntry) (item : Item)
    (hread : ReadDir node = .ok (pre ++ e :: post))
    (hpre : ∀ x ∈ pre, isMarkdownFile (filepathJoin D x.Name) = false)
    (hmd : isMarkdownFile (filepathJoin D e.Name) = true)
    (hnew : NewItem (filepathJoin D e.Name) (getChildItems NewItem D node) = .ok item) :
    findAllItems NewItem D node = [item] := by
  rw [findAllItems, hread]
  simp only
  rw [itemSearch_found NewItem D _ pre post e item _ hmd hnew]
  intro x hx hm
  rw [hpre x hx] at hm
  exact absurd hm (by decide)

/-- Claim C3: when no entry of directory D has a markdown extension, `findAllItems(D)` adds
no item of its own: it is the concatenation, in entry order, of `findAllItems(S)` over the
immediate subdirectories S of D, which is `getChildItems(D)`; so every item found in a
subdirectory of D is in the result for D itself. -/
theorem findAllItems_promotes (D : String) (node : FsEntry) (entries : List FsEntry)
    (hread : ReadDir node = .ok entries)
    (hno : ∀ x ∈ entries, isMarkdownFile (filepathJoin D x.Name) = false) :
    findAllItems NewItem D node
        = (entries.filter FsEntry.IsDir).flatMap
            (fun S => findAllItems NewItem (filepathJoin D S.Name) S)
      ∧ findAllItems NewItem D node = getChildItems NewItem D node
      ∧ ∀ S ∈ entries, S.IsDir = true →
          ∀ item ∈ findAllItems NewItem (filepathJoin D S.Name) S,
            item ∈ findAllItems NewItem D node := by
  have hnone : itemSearch NewItem D (getChildItems NewItem D node) entries = none := by
    apply itemSearch_none
    intro x hx hm
    rw [hno x hx] at hm
    exact absurd hm (by decide)
  have h2 : findAllItems NewItem D node = getChildItems NewItem D node := by
    rw [findAllItems, hread]
    simp only
    rw [hnone]
  have h1 : findAllItems NewItem D node
        = (entries.filter FsEntry.IsDir).flatMap
            (fun S => findAllItems NewItem (filepathJoin D S.Name) S) := by
    rw [h2, getChildItems_of_readDir NewItem D node entries hread, getChildItemsLoop_eq_bind]
  refine ⟨h1, h2, ?_⟩
  intro S hS hdir item hitem
  rw [h1, List.mem_flatMap]
  exact ⟨S, List.mem_filter.mpr ⟨hS, hdir⟩, hitem⟩


/-- Claim C2, as amended: when `NewItem` fails on the first markdown entry of D, that entry
is skipped and the search goes on.  The result is the one item built from the next markdown
entry on which `NewItem` succeeds, and when `NewItem` fails on every remaining markdown entry
the result is `getChildItems(D)`, the items found in the subdirectories of D. -/
theorem findAllItems_construction_failure (D : String) (node : FsEntry)
    (pre post : List FsEntry) (e : FsEntry) (err : String)
    (hread : ReadDir node = .ok (pre ++ e :: post))
    (hpre : ∀ x ∈ pre, isMarkdownFile (filepathJoin D x.Name) = false)
    (hmd : isMarkdownFile (filepathJoin D e.Name) = true)
    (hfail : NewItem (filepathJoin D e.Name) (getChildItems NewItem D node) = .error err) :
    (∀ (mid rest : List FsEntry) (e2 : FsEntry) (item : Item),
        post = mid ++ e2 :: rest →
        (∀ x ∈ mid, isMarkdownFile (filepathJoin D x.Name) = true →
          ∃ err2, NewItem (filepathJoin D x.Name) (getChildItems NewItem D node) = .error err2) →
        isMarkdownFile (filepathJoin D e2.Name) = true →
        NewItem (filepathJoin D e2.Name) (getChildItems NewItem D node) = .ok item →
        findAllItems NewItem D node = [item])
      ∧ ((∀ x ∈ post, isMarkdownFile (filepathJoin D x.Name) = true →
          ∃ err2, NewItem (filepathJoin D x.Name) (getChildItems NewItem D node) = .error err2) →
        findAllItems NewItem D node = getChildItems NewItem D node) := by
  have hskip : ∀ x ∈ pre ++ [e], isMarkdownFile (filepathJoin D x.Name) = true →
      ∃ err2, NewItem (filepathJoin D x.Name) (getChildItems NewItem D node) = .error err2 := by
    intro x hx hm
    rcases List.mem_append.mp hx with h | h
    · rw [hpre x h] at hm
      exact absurd hm (by decide)
    · rw [List.mem_singleton] at h
      subst h
      exact ⟨err, hfail⟩
  have hlist : pre ++ e :: post = (pre ++ [e]) ++ post := by simp
  constructor
  · intro mid rest e2 item hpost hmid hmd2 hnew
    rw [findAllItems, hread]
    simp only
    have hsplit : pre ++ e :: post = ((pre ++ [e]) ++ mid) ++ e2 :: rest := by
      rw [hpost]; simp
    rw [hsplit, itemSearch_found NewItem D _ ((pre ++ [e]) ++ mid) rest e2 item _ hmd2 hnew]
    intro x hx hm
    rcases List.mem_append.mp hx with h | h
    · exact hskip x h hm
    · exact hmid x h hm
  · intro hall
    rw [findAllItems, hread]
    simp only
    rw [hlist, itemSearch_none NewItem D _ ((pre ++ [e]) ++ post)]
    intro x hx hm
    rcases List.mem_append.mp hx with h | h
    · exact hskip x h hm
    · exact hall x h hm

end

theorem getChildItems_dirTwoSources_ok :
    getChildItems okItem "/r" dirTwoSources = [PathItem.mk "/r/x/c.md" []] := by
  have h1 : isMarkdownFile "/r/x/c.md" = true := by decide
  simp [dirTwoSources, findAllItems, getChildItems, getChildItemsLoop, itemSearch, ReadDir, mkDir,
    mkFile, okItem, filepathJoin, FsEntry.Name, FsEntry.IsDir, FsEntry.info, h1]

theorem findAllItems_first_markdown_witness :
    findAllItems okItem "/r" dirTwoSources = [PathItem.mk "/r/a.md" [PathItem.mk "/r/x/c.md" []]] :=
  findAllItems_first_markdown okItem "/r" dirTwoSources [] [mkFile "b.md", mkDir "x" [mkFile "c.md"]]
    (mkFile "a.md") _ rfl (by simp) (by decide)
    (by rw [getChildItems_dirTwoSources_ok]; rfl)

theorem findAllItems_failure_counterexample :
    ReadDir dirTwoSources = .ok [mkFile "a.md", mkFile "b.md", mkDir "x" [mkFile "c.md"]]
      ∧ isMarkdownFile (filepathJoin "/r" (mkFile "a.md").Name) = true
      ∧ failOn "/r/a.md" (filepathJoin "/r" (mkFile "a.md").Name)
          (getChildItems (failOn "/r/a.md") "/r" dirTwoSources) = .error "cannot create item"
      ∧ findAllItems (failOn "/r/a.md") "/r" dirTwoSources
          = [PathItem.mk "/r/b.md" [PathItem.mk "/r/x/c.md" []]]
      ∧ findAllItems (failOn "/r/a.md") "/r" dirOneSource = [PathItem.mk "/r/x/c.md" []] := by
  have h1 : isMarkdownFile "/r/x/c.md" = true := by decide
  have h2 : isMarkdownFile "/r/a.md" = true := by decide
  have h3 : isMarkdownFile "/r/b.md" = true := by decide
  have h4 : isMarkdownFile "/r/notes.txt" = false := by decide
  have h5 : isMarkdownFile "/r/x" = false := by decide
  refine ⟨rfl, by decide, ?_, ?_, ?_⟩
  · simp [failOn, filepathJoin, mkFile, FsEntry.Name, FsEntry.info]
  · simp [dirTwoSources, findAllItems, getChildItems, getChildItemsLoop, itemSearch, ReadDir,
      mkDir, mkFile, failOn, filepathJoin, FsEntry.Name, FsEntry.IsDir, FsEntry.info, h1, h2, h3]
  · simp [dirOneSource, findAllItems, getChildItems, getChildItemsLoop, itemSearch, ReadDir,
      mkDir, mkFile, failOn, filepathJoin, FsEntry.Name, FsEntry.IsDir, FsEntry.info, h1, h2, h4, h5]

theorem findAllItems_construction_failure_witness :
    findAllItems (failOn "/r/a.md") "/r" dirTwoSources
        = [PathItem.mk "/r/b.md" (getChildItems (failOn "/r/a.md") "/r" dirTwoSources)] :=
  (findAllItems_construction_failure (failOn "/r/a.md") "/r" dirTwoSources []
    [mkFile "b.md", mkDir "x" [mkFile "c.md"]] (mkFile "a.md") "cannot create item" rfl
    (by simp) (by decide)
    (by simp [failOn, filepathJoin, mkFile, FsEntry.Name, FsEntry.info])).1
    [] [mkDir "x" [mkFile "c.md"]] (mkFile "b.md") _ rfl (by simp) (by decide)
    (by simp [failOn, filepathJoin, mkFile, FsEntry.Name, FsEntry.info])

theorem findAllItems_promotes_witness :
    findAllItems okItem "/r" (mkDir "r" [mkFile "notes.txt", mkDir "x" [mkFile "item.md"]])
      = [PathItem.mk "/r/x/item.md" []] := by
  have h := (findAllItems_promotes okItem "/r"
    (mkDir "r" [mkFile "notes.txt", mkDir "x" [mkFile "item.md"]])
    [mkFile "notes.txt", mkDir "x" [mkFile "item.md"]] rfl
    (by
      intro x hx
      simp only [List.mem_cons, List.mem_singleton, List.not_mem_nil, or_false] at hx
      rcases hx with h | h <;> subst h <;> decide)).1
  rw [h]
  have h1 : isMarkdownFile "/r/x/item.md" = true := by decide
  simp [findAllItems, getChildItems, getChildItemsLoop, itemSearch, ReadDir, mkDir,
    mkFile, okItem, filepathJoin, FsEntry.Name, FsEntry.IsDir, FsEntry.info, h1]

end indexer

/-! ## The folder watcher -/

namespace watcher
open fs

theorem sliceContainsElement_iff (list : List String) (elem : String) :
    SliceContainsElement list elem = true ↔ elem ∈ list := by
  induction list with
  | nil => simp [SliceContainsElement]
  | cons x rest ih =>
    by_cases hx : x = elem
    · simp [SliceContainsElement, hx]
    · have hne : ¬ elem = x := fun h => hx h.symm
      simp [SliceContainsElement, hx, hne, ih]

theorem foldl_append_if (p : String → Bool) (l init : List String) :
    l.foldl (fun acc x => if p x then acc ++ [x] else acc) init = init ++ l.filter p := by
  induction l generalizing init with
  | nil => simp
  | cons x rest ih =>
    by_cases hp : p x = true
    · simp [List.foldl_cons, hp, ih, List.filter_cons]
    · simp [List.foldl_cons, hp, ih, List.filter_cons]

theorem absentFilter_eq (other l : List String) :
    l.foldl (fun acc x =>
        let isAbsent := !SliceContainsElement other x
        if isAbsent then acc ++ [x] else acc) []
      = l.filter (fun p => decide (p ∉ other)) := by
  have h := foldl_append_if (fun x => !SliceContainsElement other x) l []
  simp only [List.nil_append] at h
  have hf : (fun x => !SliceContainsElement other x) = (fun p => decide (p ∉ other)) := by
    funext x
    by_cases hx : x ∈ other
    · simp [hx, (sliceContainsElement_iff other x).mpr hx]
    · have : SliceContainsElement other x = false := by
        cases hc : SliceContainsElement other x with
        | false => rfl
        | true => exact absurd ((sliceContainsElement_iff other x).mp hc) hx
      simp [hx, this]
  rw [← hf]
  exact h

/-- The two loops of a pass are filters, and a change is sent when one of them finds a path. -/
theorem compareEntries_eq (now : Nat) (S0 S1 : List String) (sent : List FolderChange) :
    compareEntries now S1 { existingEntries := S0, Change := sent }
      = { existingEntries := S1
          Change :=
            if S1.filter (fun p => decide (p ∉ S0)) = [] ∧ S0.filter (fun p => decide (p ∉ S1)) = []
            then sent
            else sent ++ [{ timeStamp := now
                            newItems := S1.filter (fun p => decide (p ∉ S0))
                            movedItems := S0.filter (fun p => decide (p ∉ S1)) }] } := by
  unfold compareEntries
  simp only [absentFilter_eq]
  generalize S1.filter (fun p => decide (p ∉ S0)) = A
  generalize S0.filter (fun p => decide (p ∉ S1)) = B
  cases A <;> cases B <;> simp [newFolderChange]

theorem compareEntries_same (now : Nat) (S : List String) (sent : List FolderChange) :
    compareEntries now S { existingEntries := S, Change := sent }
      = { existingEntries := S, Change := sent } := by
  rw [compareEntries_eq]
  have h : S.filter (fun p => decide (p ∉ S)) = [] := by
    rw [List.filter_eq_nil_iff]
    intro a ha
    simp [ha]
  simp [h]

/-- Claim C4: one pass of the scan loop, from the stored snapshot S0 to the new snapshot S1,
computes the new paths as the entries of S1 not in S0 and the moved paths as the entries of
S0 not in S1, hands exactly one folder change with these two lists to the channel when one
of them is not empty and nothing when both are empty, and stores S1.  From p1, p2 to p2, p3
the change has p3 as new and p1 as moved; an unchanged snapshot gives no change. -/
theorem scanCycle_publishes_delta :
    (∀ (now : Nat) (S0 S1 : List String) (sent : List FolderChange),
      compareEntries now S1 { existingEntries := S0, Change := sent }
        = { existingEntries := S1
            Change :=
              if S1.filter (fun p => decide (p ∉ S0)) = []
                  ∧ S0.filter (fun p => decide (p ∉ S1)) = []
              then sent
              else sent ++ [{ timeStamp := now
                              newItems := S1.filter (fun p => decide (p ∉ S0))
                              movedItems := S0.filter (fun p => decide (p ∉ S1)) }] })
    ∧ (∀ (folderWatcher : FolderWatcher) (now : Nat) (node : FsEntry) (st : LoopState),
        scanCycle folderWatcher now node st
          = compareEntries now
              (getFolderEntries folderWatcher.folder folderWatcher.recurse
                folderWatcher.skipFile node) st)
    ∧ (∀ (now : Nat) (S : List String) (sent : List FolderChange),
        compareEntries now S { existingEntries := S, Change := sent }
          = { existingEntries := S, Change := sent })
    ∧ (∀ (now : Nat) (p1 p2 p3 : String) (sent : List FolderChange),
        p1 ≠ p2 → p1 ≠ p3 → p2 ≠ p3 →
        compareEntries now [p2, p3] { existingEntries := [p1, p2], Change := sent }
          = { existingEntries := [p2, p3]
              Change := sent ++ [{ timeStamp := now, newItems := [p3], movedItems := [p1] }] })
    ∧ (∀ (now : Nat) (S0 S1 : List String) (sent : List FolderChange) (change : FolderChange),
        (compareEntries now S1 { existingEntries := S0, Change := sent }).Change
            = sent ++ [change] →
        (∀ p, p ∈ change.New ↔ p ∈ S1 ∧ p ∉ S0) ∧ (∀ p, p ∈ change.Moved ↔ p ∈ S0 ∧ p ∉ S1)) := by
  refine ⟨compareEntries_eq, fun _ _ _ _ => rfl, compareEntries_same, ?_, ?_⟩
  · intro now p1 p2 p3 sent h12 h13 h23
    rw [compareEntries_eq]
    have h21 : p2 ≠ p1 := fun h => h12 h.symm
    have h31 : p3 ≠ p1 := fun h => h13 h.symm
    have h32 : p3 ≠ p2 := fun h => h23 h.symm
    simp [List.filter_cons, h12, h13, h23, h21, h31, h32]
  · intro now S0 S1 sent change hsent
    rw [compareEntries_eq] at hsent
    simp only at hsent
    split at hsent
    · have hlen := congrArg List.length hsent
      simp at hlen
    · have hone := List.append_cancel_left hsent
      simp only [List.cons.injEq, and_true] at hone
      subst hone
      constructor
      · intro p
        simp [FolderChange.New, List.mem_filter]
      · intro p
        simp [FolderChange.Moved, List.mem_filter]

theorem scanCycle_publishes_delta_witness :
    compareEntries 5 ["p2", "p3"] { existingEntries := ["p1", "p2"], Change := [] }
      = { existingEntries := ["p2", "p3"]
          Change := [] ++ [{ timeStamp := 5, newItems := ["p3"], movedItems := ["p1"] }] } :=
  scanCycle_publishes_delta.2.2.2.1 5 "p1" "p2" "p3" [] (by decide) (by decide) (by decide)

theorem readDir_error_entries (directory : String) (recurse : Bool) (skipFile : FileInfo → Bool)
    (node : FsEntry) (err : String) (h : ReadDir node = .error err) :
    getFolderEntries directory recurse skipFile node = [] := by
  cases node with
  | mk fi readable es =>
    simp only [ReadDir] at h
    by_cases hc : (fi.IsDir && readable) = true
    · rw [if_pos hc] at h
      cases h
    · simp [getFolderEntries, hc]

/-- Claim C6, as amended: when listing the watched folder fails in a pass, the pass is not
skipped: the snapshot taken is empty.  With an empty stored snapshot nothing is handed to the
channel; otherwise one folder change is handed to it, with no new path and every stored path
as moved.  In both cases the stored snapshot becomes the empty one. -/
theorem scanCycle_listing_failure (folderWatcher : FolderWatcher) (now : Nat) (node : FsEntry)
    (st : LoopState) (err : String) (h : ReadDir node = .error err) :
    scanCycle folderWatcher now node st
      = { existingEntries := []
          Change :=
            if st.existingEntries = [] then st.Change
            else st.Change
              ++ [{ timeStamp := now, newItems := [], movedItems := st.existingEntries }] } := by
  cases st with
  | mk S0 sent =>
    simp only [scanCycle, readDir_error_entries _ _ _ node err h]
    rw [compareEntries_eq]
    simp

theorem scanCycle_listing_failure_witness :
    scanCycle (NewFolderWatcher "/r" true (fun _ => false)) 7 (mkLockedDir "r" [mkFile "a"])
        { existingEntries := ["/r/a"], Change := [] }
      = { existingEntries := []
          Change :=
            if ["/r/a"] = [] then []
            else [] ++ [{ timeStamp := 7, newItems := [], movedItems := ["/r/a"] }] } :=
  scanCycle_listing_failure (NewFolderWatcher "/r" true (fun _ => false)) 7
    (mkLockedDir "r" [mkFile "a"]) { existingEntries := ["/r/a"], Change := [] } "open r" rfl

theorem scanCycle_listing_failure_counterexample :
    ReadDir (mkLockedDir "r" [mkFile "a"]) = .error "open r"
      ∧ scanCycle (NewFolderWatcher "/r" true (fun _ => false)) 7 (mkLockedDir "r" [mkFile "a"])
          { existingEntries := ["/r/a"], Change := [] }
        = { existingEntries := []
            Change := [{ timeStamp := 7, newItems := [], movedItems := ["/r/a"] }] } := by
  constructor
  · rfl
  · decide

/-- Claim C5, evaluated on the code: `NewFolderWatcher` stores `true` in the field `recurse`
whatever flag it is given, so a watcher made with `recurse = false` takes a snapshot that
holds the path of a file inside a subdirectory, where `getFolderEntries` called with `false`
returns the immediate entries only. -/
theorem NewFolderWatcher_recurse_fixed :
    (∀ (folderPath : String) (recurse : Bool) (skipFile : FileInfo → Bool),
      (NewFolderWatcher folderPath recurse skipFile).recurse = true)
    ∧ Start (NewFolderWatcher "/r" false (fun _ => false))
          (mkDir "r" [mkFile "a", mkDir "sub" [mkFile "f"]]) []
        = { existingEntries := ["/r/a", "/r/sub/f"], Change := [] }
    ∧ getFolderEntries "/r" false (fun _ => false)
          (mkDir "r" [mkFile "a", mkDir "sub" [mkFile "f"]]) = ["/r/a", "/r/sub"] := by
  refine ⟨fun _ _ _ => rfl, by decide, by decide⟩

theorem getFolderEntries_mk (directory : String) (recurse : Bool) (skipFile : FileInfo → Bool)
    (fi : FileInfo) (readable : Bool) (es : List FsEntry) :
    getFolderEntries directory recurse skipFile (.mk fi readable es)
      = if !(fi.IsDir && readable) then []
        else getFolderEntriesLoop directory recurse skipFile es := by
  rw [getFolderEntries]

/-- The listing step of `getFolderEntries`, said with `ReadDir`. -/
theorem getFolderEntries_eq_readDir (directory : String) (recurse : Bool)
    (skipFile : FileInfo → Bool) (node : FsEntry) :
    getFolderEntries directory recurse skipFile node
      = match ReadDir node with
        | .error _ => []
        | .ok directoryEntries => getFolderEntriesLoop directory recurse skipFile directoryEntries := by
  cases node with
  | mk fi readable es =>
    rw [getFolderEntries_mk]
    by_cases hc : (fi.IsDir && readable) = true
    · simp [ReadDir, hc]
    · simp [ReadDir, hc]

theorem getFolderEntriesLoop_cons (directory : String) (recurse : Bool)
    (skipFile : FileInfo → Bool) (entry : FsEntry) (rest : List FsEntry) :
    getFolderEntriesLoop directory recurse skipFile (entry :: rest)
      = if skipFile entry.info then getFolderEntriesLoop directory recurse skipFile rest
        else if recurse && entry.IsDir then
          getFolderEntries (filepathJoin directory entry.Name) recurse skipFile entry
            ++ getFolderEntriesLoop directory recurse skipFile rest
        else filepathJoin directory entry.Name
          :: getFolderEntriesLoop directory recurse skipFile rest := by
  rw [getFolderEntriesLoop]

mutual
theorem provenance_node (recurse : Bool) (skipFile : FileInfo → Bool) :
    ∀ (node : FsEntry) (directory p : String),
      p ∈ getFolderEntries directory recurse skipFile node →
      ∃ chain, IsChain node.entries chain ∧ pathOf directory chain = p
        ∧ Kept recurse skipFile chain
  | .mk fi readable es, directory, p, hp => by
    rw [getFolderEntries_mk] at hp
    by_cases hc : (!(fi.IsDir && readable)) = true
    · rw [if_pos hc] at hp
      simp at hp
    · rw [if_neg hc] at hp
      exact provenance_list recurse skipFile es directory p hp
theorem provenance_list (recurse : Bool) (skipFile : FileInfo → Bool) :
    ∀ (l : List FsEntry) (directory p : String),
      p ∈ getFolderEntriesLoop directory recurse skipFile l →
      ∃ chain, IsChain l chain ∧ pathOf directory chain = p ∧ Kept recurse skipFile chain
  | [], directory, p, hp => by
    simp [getFolderEntriesLoop] at hp
  | entry :: rest, directory, p, hp => by
    rw [getFolderEntriesLoop_cons] at hp
    have hrest : p ∈ getFolderEntriesLoop directory recurse skipFile rest →
        ∃ chain, IsChain (entry :: rest) chain ∧ pathOf directory chain = p
          ∧ Kept recurse skipFile chain := by
      intro h
      obtain ⟨chain, hc, hpath, hk⟩ := provenance_list recurse skipFile rest directory p h
      exact ⟨chain, isChain_mono hc (fun e he => List.mem_cons_of_mem _ he), hpath, hk⟩
    by_cases hs : skipFile entry.info = true
    · rw [if_pos hs] at hp
      exact hrest hp
    · rw [if_neg hs] at hp
      have hs2 : skipFile entry.info = false := by simpa using hs
      by_cases hr : (recurse && entry.IsDir) = true
      · rw [if_pos hr] at hp
        rcases List.mem_append.mp hp with h | h
        · obtain ⟨chain, hc, hpath, hk⟩ :=
            provenance_node recurse skipFile entry (filepathJoin directory entry.Name) p h
          refine ⟨entry :: chain, IsChain.cons (List.mem_cons_self _ _) hc, ?_, ?_, ?_⟩
          · rw [pathOf_cons]; exact hpath
          · intro e he
            rcases List.mem_cons.mp he with h1 | h1
            · rw [h1]; exact hs2
            · exact hk.1 e h1
          · intro hrec
            obtain ⟨e, hl, hd⟩ := hk.2 hrec
            refine ⟨e, ?_, hd⟩
            cases chain with
            | nil => simp at hl
            | cons x xs => rw [List.getLast?_cons_cons]; exact hl
        · exact hrest h
      · rw [if_neg hr] at hp
        rcases List.mem_cons.mp hp with h | h
        · refine ⟨[entry], IsChain.single (List.mem_cons_self _ _), ?_, ?_, ?_⟩
          · rw [h]; rfl
          · intro e he
            rw [List.mem_singleton.mp he]; exact hs2
          · intro hrec
            refine ⟨entry, rfl, ?_⟩
            rw [hrec] at hr
            simpa using hr
        · exact hrest h
end


/-- Every returned path is the path of a chain, and every chain with that path is kept. -/
theorem provenance (root : String) (recurse : Bool) (skipFile : FileInfo → Bool) (node : FsEntry)
    (hwf : wellFormed node = true) (p : String)
    (hp : p ∈ getFolderEntries root recurse skipFile node) :
    (∃ chain, IsChain node.entries chain ∧ pathOf root chain = p)
      ∧ ∀ chain, IsChain node.entries chain → pathOf root chain = p →
          Kept recurse skipFile chain := by
  obtain ⟨c0, hc0, hp0, hk0⟩ := provenance_node recurse skipFile node root p hp
  refine ⟨⟨c0, hc0, hp0⟩, ?_⟩
  intro chain hc hpath
  obtain ⟨hwl, hnd⟩ := wellFormed_entries hwf
  have : chain = c0 := pathOf_inj root node.entries chain c0 hnd hwl hc hc0 (by rw [hpath, hp0])
  rw [this]
  exact hk0

/-- Claim C7: in a tree with well formed names, for any skip predicate and either value of
`recurse`, every path that `getFolderEntries` returns is the path of a chain of entries below
the root, and on every chain with that path no entry is skipped: neither the entry the path
names nor a directory above it. -/
theorem getFolderEntries_omits_skipped (root : String) (recurse : Bool)
    (skipFile : FileInfo → Bool) (node : FsEntry) (hwf : wellFormed node = true) (p : String)
    (hp : p ∈ getFolderEntries root recurse skipFile node) :
    (∃ chain, IsChain node.entries chain ∧ pathOf root chain = p)
      ∧ ∀ chain, IsChain node.entries chain → pathOf root chain = p →
          ∀ e ∈ chain, skipFile e.info = false := by
  obtain ⟨h1, h2⟩ := provenance root recurse skipFile node hwf p hp
  exact ⟨h1, fun chain hc hpath => (h2 chain hc hpath).1⟩

theorem getFolderEntriesLoop_append (directory : String) (recurse : Bool)
    (skipFile : FileInfo → Bool) (l1 l2 : List FsEntry) :
    getFolderEntriesLoop directory recurse skipFile (l1 ++ l2)
      = getFolderEntriesLoop directory recurse skipFile l1
        ++ getFolderEntriesLoop directory recurse skipFile l2 := by
  induction l1 with
  | nil => simp [getFolderEntriesLoop]
  | cons e rest ih =>
    rw [List.cons_append, getFolderEntriesLoop_cons, getFolderEntriesLoop_cons, ih]
    by_cases hs : skipFile e.info = true
    · simp [hs]
    · by_cases hr : (recurse && e.IsDir) = true
      · simp [hs, hr]
      · simp [hs, hr]

mutual
theorem barren_node (skipFile : FileInfo → Bool) :
    ∀ (node : FsEntry) (directory : String),
      (∀ chain e, IsChain node.entries chain → chain.getLast? = some e → e.IsDir = false →
        skipFile e.info = true) →
      getFolderEntries directory true skipFile node = []
  | .mk fi readable es, directory, h => by
    rw [getFolderEntries_mk]
    by_cases hc : (!(fi.IsDir && readable)) = true
    · rw [if_pos hc]
    · rw [if_neg hc]
      exact barren_list skipFile es directory h
theorem barren_list (skipFile : FileInfo → Bool) :
    ∀ (l : List FsEntry) (directory : String),
      (∀ chain e, IsChain l chain → chain.getLast? = some e → e.IsDir = false →
        skipFile e.info = true) →
      getFolderEntriesLoop directory true skipFile l = []
  | [], directory, h => by
    simp [getFolderEntriesLoop]
  | entry :: rest, directory, h => by
    have hrest : getFolderEntriesLoop directory true skipFile rest = [] :=
      barren_list skipFile rest directory (fun chain e hc hl hd =>
        h chain e (isChain_mono hc (fun x hx => List.mem_cons_of_mem _ hx)) hl hd)
    rw [getFolderEntriesLoop_cons, hrest]
    by_cases hs : skipFile entry.info = true
    · rw [if_pos hs]
    · rw [if_neg hs]
      by_cases hd : entry.IsDir = true
      · have hnode := barren_node skipFile entry (filepathJoin directory entry.Name)
          (fun chain e hc hl hd2 => by
            refine h (entry :: chain) e (IsChain.cons (List.mem_cons_self _ _) hc) ?_ hd2
            cases chain with
            | nil => simp at hl
            | cons x xs => rw [List.getLast?_cons_cons]; exact hl)
        simp [hd, hnode]
      · exfalso
        have hd2 : entry.IsDir = false := by simpa using hd
        exact hs (h [entry] entry (IsChain.single (List.mem_cons_self _ _)) rfl hd2)
end

theorem addsBarrenDir_info {skipFile : FileInfo → Bool} {before after : FsEntry}
    (h : AddsBarrenDir skipFile before after) : before.info = after.info := by
  cases h <;> rfl

theorem addsBarrenDir_entries {skipFile : FileInfo → Bool} {before after : FsEntry}
    (h : AddsBarrenDir skipFile before after) :
    ∀ directory, getFolderEntries directory true skipFile before
      = getFolderEntries directory true skipFile after := by
  induction h with
  | atListing fi readable l1 l2 d hd hb =>
    intro directory
    rw [getFolderEntries_mk, getFolderEntries_mk, getFolderEntriesLoop_append,
      getFolderEntriesLoop_append, getFolderEntriesLoop_cons]
    have hnode := barren_node skipFile d (filepathJoin directory d.Name) hb
    by_cases hs : skipFile d.info = true
    · simp [hs]
    · simp [hs, hd, hnode]
  | inside fi readable l1 l2 e e2 hrel ih =>
    intro directory
    have hi := addsBarrenDir_info hrel
    have hn : e.Name = e2.Name := by simp [FsEntry.Name, hi]
    have hdir : e.IsDir = e2.IsDir := by simp [FsEntry.IsDir, hi]
    rw [getFolderEntries_mk, getFolderEntries_mk, getFolderEntriesLoop_append,
      getFolderEntriesLoop_append, getFolderEntriesLoop_cons, getFolderEntriesLoop_cons,
      hi, hn, hdir, ih]

/-- Claim C10: with `recurse = true` every path that `getFolderEntries` returns, in a tree
with well formed names, is the path of an entry that is not a directory.  A directory all of
whose descendants other than directories are skipped, an empty one for instance, adds nothing
to the snapshot wherever it is put, and the pass that sees it appear or disappear hands no
folder change to the channel. -/
theorem getFolderEntries_recursive_files_only :
    (∀ (root : String) (skipFile : FileInfo → Bool) (node : FsEntry),
      wellFormed node = true → ∀ p ∈ getFolderEntries root true skipFile node,
        (∃ chain, IsChain node.entries chain ∧ pathOf root chain = p)
          ∧ ∀ chain, IsChain node.entries chain → pathOf root chain = p →
              ∃ e, chain.getLast? = some e ∧ e.IsDir = false)
    ∧ (∀ (skipFile : FileInfo → Bool) (before after : FsEntry),
        AddsBarrenDir skipFile before after →
        ∀ root, getFolderEntries root true skipFile before
          = getFolderEntries root true skipFile after)
    ∧ (∀ (folderWatcher : FolderWatcher) (before after : FsEntry),
        folderWatcher.recurse = true →
        AddsBarrenDir folderWatcher.skipFile before after →
        ∀ (now : Nat) (sent : List FolderChange),
          (scanCycle folderWatcher now after
              { existingEntries := getFolderEntries folderWatcher.folder true
                  folderWatcher.skipFile before, Change := sent }).Change = sent
          ∧ (scanCycle folderWatcher now before
              { existingEntries := getFolderEntries folderWatcher.folder true
                  folderWatcher.skipFile after, Change := sent }).Change = sent) := by
  refine ⟨?_, ?_, ?_⟩
  · intro root skipFile node hwf p hp
    obtain ⟨h1, h2⟩ := provenance root true skipFile node hwf p hp
    exact ⟨h1, fun chain hc hpath => (h2 chain hc hpath).2 rfl⟩
  · intro skipFile before after h root
    exact addsBarrenDir_entries h root
  · intro fw before after hrec h now sent
    have heq := addsBarrenDir_entries h fw.folder
    have hsame : ∀ S, (compareEntries now S { existingEntries := S, Change := sent }).Change
        = sent := by
      intro S
      rw [compareEntries_same]
    constructor
    · simp only [scanCycle, hrec, ← heq]
      exact hsame _
    · simp only [scanCycle, hrec, heq]
      exact hsame _

theorem getFolderEntries_omits_skipped_witness :
    getFolderEntries "/r" true skipGit watchedTree = ["/r/a", "/r/sub/b"]
      ∧ ∀ e ∈ [mkDir "sub" [mkFile "b"], mkFile "b"], skipGit e.info = false :=
  ⟨by decide,
    (getFolderEntries_omits_skipped "/r" true skipGit watchedTree (by decide) "/r/sub/b"
      (by decide)).2 [mkDir "sub" [mkFile "b"], mkFile "b"]
      (IsChain.cons (by simp [watchedTree, mkDir, FsEntry.entries])
        (IsChain.single (by simp [mkDir, FsEntry.entries])))
      (by decide)⟩

theorem emptyDir_barren :
    AddsBarrenDir skipGit (mkDir "r" [mkFile "a", mkDir "sub" [mkFile "b"]])
      (mkDir "r" [mkFile "a", mkDir "empty" [], mkDir "sub" [mkFile "b"]]) :=
  AddsBarrenDir.atListing ⟨"r", 0, 0, true⟩ true [mkFile "a"] [mkDir "sub" [mkFile "b"]]
    (mkDir "empty" []) rfl
    (by
      intro chain e h
      cases h with
      | single hm => simp [mkDir, FsEntry.entries] at hm
      | cons hm _ => simp [mkDir, FsEntry.entries] at hm)

theorem getFolderEntries_recursive_files_only_witness :
    (∃ e, [mkDir "sub" [mkFile "b"], mkFile "b"].getLast? = some e ∧ e.IsDir = false)
      ∧ getFolderEntries "/r" true skipGit (mkDir "r" [mkFile "a", mkDir "sub" [mkFile "b"]])
          = getFolderEntries "/r" true skipGit
              (mkDir "r" [mkFile "a", mkDir "empty" [], mkDir "sub" [mkFile "b"]])
      ∧ (scanCycle (NewFolderWatcher "/r" false skipGit) 3
            (mkDir "r" [mkFile "a", mkDir "empty" [], mkDir "sub" [mkFile "b"]])
            { existingEntries := getFolderEntries "/r" true skipGit
                (mkDir "r" [mkFile "a", mkDir "sub" [mkFile "b"]]), Change := [] }).Change = [] :=
  ⟨(getFolderEntries_recursive_files_only.1 "/r" skipGit watchedTree (by decide) "/r/sub/b"
      (by decide)).2 [mkDir "sub" [mkFile "b"], mkFile "b"]
      (IsChain.cons (by simp [watchedTree, mkDir, FsEntry.entries])
        (IsChain.single (by simp [mkDir, FsEntry.entries])))
      (by decide),
    getFolderEntries_recursive_files_only.2.1 skipGit _ _ emptyDir_barren "/r",
    (getFolderEntries_recursive_files_only.2.2 (NewFolderWatcher "/r" false skipGit) _ _ rfl
      emptyDir_barren 3 []).1⟩

end watcher

/-! ## The full-text index -/

namespace search

section
variable {R S : Type} (NewFromRequest : String → Except String R)
  (NewSearcher : String → Except String S)
  (SimpleSearch : S → String → Int → Except String (List SearchResultItem))
  (Value : R → String) (Components : R → List String)

theorem foldl_filterMap {α β : Type} (f : List β → α → List β) (g : α → Option β)
    (hf : ∀ acc v, f acc v = acc ++ (g v).toList) (l : List α) (init : List β) :
    l.foldl f init = init ++ l.filterMap g := by
  induction l generalizing init with
  | nil => simp
  | cons v rest ih =>
    rw [List.foldl_cons, ih, hf]
    cases h : g v with
    | none => simp [List.filterMap_cons, h]
    | some r => simp [List.filterMap_cons, h]

/-- The loop of `Search` keeps the hits that `resolveHit` keeps, in order. -/
theorem collectResults_eq (index : FullTextIndex R) (hits : List SearchResultItem) :
    collectResults NewFromRequest index hits
      = hits.filterMap (resolveHit NewFromRequest index) := by
  unfold collectResults
  rw [foldl_filterMap _ (resolveHit NewFromRequest index)]
  · simp
  · intro acc v
    unfold resolveHit
    cases h1 : NewFromRequest v.Id with
    | error e => simp
    | ok route =>
      cases h2 : index.itemIndex.IsMatch route with
      | none => simp [h2]
      | some item => simp [h2]

theorem resolveHit_some (index : FullTextIndex R) (v : SearchResultItem) (r : SearchResult R)
    (h : resolveHit NewFromRequest index v = some r) :
    ∃ route, NewFromRequest v.Id = .ok route ∧ index.itemIndex.IsMatch route = some r.Item
      ∧ r.Score = v.Score ∧ r.StoreValue = v.StoreValue := by
  unfold resolveHit at h
  cases h1 : NewFromRequest v.Id with
  | error e => simp [h1] at h
  | ok route =>
    simp only [h1] at h
    cases h2 : index.itemIndex.IsMatch route with
    | none => simp [h2] at h
    | some item =>
      rw [h2] at h
      cases h
      exact ⟨route, rfl, h2, rfl, rfl⟩

theorem scores_sublist (index : FullTextIndex R) (hits : List SearchResultItem) :
    ((hits.filterMap (resolveHit NewFromRequest index)).map (fun r => r.Score)).Sublist
      (hits.map (fun v => v.Score)) := by
  induction hits with
  | nil => simp
  | cons v rest ih =>
    cases h : resolveHit NewFromRequest index v with
    | none =>
      rw [List.filterMap_cons_none h, List.map_cons]
      exact List.Sublist.cons _ ih
    | some r =>
      obtain ⟨_, _, _, hs, _⟩ := resolveHit_some NewFromRequest index v r h
      rw [List.filterMap_cons_some h, List.map_cons, List.map_cons, hs]
      exact List.Sublist.cons₂ _ ih

/-- Claim C8: when the searcher opens and the query returns `hits`, `Search` returns exactly
the hits that `resolveHit` keeps, in the order of the hits: every result comes from a hit
whose id parses as a route that `IsMatch` resolves to the item of the result, with the score
and the stored value of that hit; the scores of the results are a sublist of the scores of
the hits, so they are descending when those are, and there are at most as many results as
hits. -/
theorem Search_returns_resolved_hits (index : FullTextIndex R) (keyword : String)
    (maxiumNumberOfResults : Int) (searcher : S) (hits : List SearchResultItem)
    (hopen : NewSearcher index.filepath = .ok searcher)
    (hquery : SimpleSearch searcher keyword maxiumNumberOfResults = .ok hits) :
    ∃ results : List (SearchResult R),
      Search NewFromRequest NewSearcher SimpleSearch index keyword maxiumNumberOfResults
          = .ok results
      ∧ results = hits.filterMap (resolveHit NewFromRequest index)
      ∧ (∀ r ∈ results, ∃ v ∈ hits, ∃ route, NewFromRequest v.Id = .ok route
          ∧ index.itemIndex.IsMatch route = some r.Item
          ∧ r.Score = v.Score ∧ r.StoreValue = v.StoreValue)
      ∧ (results.map (fun r => r.Score)).Sublist (hits.map (fun v => v.Score))
      ∧ ((hits.map (fun v => v.Score)).Pairwise (fun a b => a ≥ b) →
          (results.map (fun r => r.Score)).Pairwise (fun a b => a ≥ b))
      ∧ (∀ n : Nat, hits.length ≤ n → results.length ≤ n) := by
  refine ⟨hits.filterMap (resolveHit NewFromRequest index), ?_, rfl, ?_, ?_, ?_, ?_⟩
  · simp only [Search, hopen, hquery, collectResults_eq]
  · intro r hr
    obtain ⟨v, hv, hres⟩ := List.mem_filterMap.mp hr
    exact ⟨v, hv, resolveHit_some NewFromRequest index v r hres⟩
  · exact scores_sublist NewFromRequest index hits
  · intro hsorted
    exact hsorted.sublist (scores_sublist NewFromRequest index hits)
  · intro n hn
    exact le_trans (List.length_filterMap_le _ _) hn

theorem update_foldl (items : List (Item R)) (init : List IndexDoc) :
    items.foldl (fun idx item => idx ++ [indexDoc Value Components item]) init
      = init ++ items.map (indexDoc Value Components) := by
  induction items generalizing init with
  | nil => simp
  | cons x rest ih => rw [List.foldl_cons, ih]; simp

/-- The fold of `stringsJoin` is the join of the string library. -/
theorem stringsJoin_eq_intercalate (elems : List String) (sep : String) :
    stringsJoin elems sep = sep.intercalate elems := by
  cases elems with
  | nil => rfl
  | cons first rest =>
    simp only [stringsJoin, String.intercalate]
    induction rest generalizing first with
    | nil => rfl
    | cons e more ih =>
      simp only [List.foldl_cons, String.intercalate.go]
      exact ih _

/-- Claim C9: `Update` adds one document per item of the item index, in order; the document
of an item has the value of its route as id, its title as stored value, and as indexed text
`getContent`: title, description, the components of the route and content in that order,
each separated from the next by one space.  For the item with title Intro, description First
steps, route components docs and intro and content Hello the indexed text is
Intro First steps docs intro Hello. -/
theorem Update_documents (index : FullTextIndex R) :
    Update Value Components index = index.itemIndex.Items.map (indexDoc Value Components)
    ∧ (∀ item : Item R,
        (indexDoc Value Components item).Id = Value item.Route
        ∧ (indexDoc Value Components item).StoreValue = item.Title
        ∧ (indexDoc Value Components item).IndexValue = getContent Components item
        ∧ getContent Components item
            = item.Title ++ " " ++ item.Description ++ " "
              ++ stringsJoin (Components item.Route) " " ++ " " ++ item.Content
        ∧ (indexDoc Value Components item).IndexValue
            = item.Title ++ " " ++ item.Description ++ " "
              ++ " ".intercalate (Components item.Route) ++ " " ++ item.Content)
    ∧ Update (fun r : List String => "/".intercalate r) (fun r : List String => r) indexIntro
        = [{ Id := "docs/intro", StoreValue := "Intro",
             IndexValue := "Intro First steps docs intro Hello" },
           { Id := "", StoreValue := "Home", IndexValue := "Home First steps  Hello" }] := by
  refine ⟨?_, ?_, ?_⟩
  · unfold Update
    rw [update_foldl]
    simp
  · intro item
    refine ⟨rfl, rfl, rfl, ?_, ?_⟩
    · simp [getContent, String.append_assoc]
    · simp [indexDoc, getContent, String.append_assoc, stringsJoin_eq_intercalate]
  · decide

end

theorem Update_documents_witness :
    Update (fun r : List String => "/".intercalate r) (fun r : List String => r) indexIntro
        = [{ Id := "docs/intro", StoreValue := "Intro",
             IndexValue := "Intro First steps docs intro Hello" },
           { Id := "", StoreValue := "Home", IndexValue := "Home First steps  Hello" }]
      ∧ (indexDoc (fun r : List String => "/".intercalate r) (fun r : List String => r)
            itemIntro).IndexValue = "Intro First steps docs intro Hello" :=
  ⟨(Update_documents (fun r : List String => "/".intercalate r) (fun r : List String => r)
      indexIntro).2.2,
    ((Update_documents (fun r : List String => "/".intercalate r) (fun r : List String => r)
      indexIntro).2.1 itemIntro).2.2.2.2.trans (by decide)⟩

theorem Search_returns_resolved_hits_witness :
    ∃ results : List (SearchResult String),
      Search routeFromRequest (fun _ => Except.ok ()) (fun _ _ _ => Except.ok hitsA) indexA
          "foo" 10 = .ok results
      ∧ results = [{ Score := 9, StoreValue := "A", Item := itemA }] :=
  match Search_returns_resolved_hits routeFromRequest (fun _ => Except.ok ())
    (fun _ _ _ => Except.ok hitsA) indexA "foo" 10 () hitsA rfl rfl with
  | ⟨results, h1, h2, _⟩ => ⟨results, h1, h2.trans rfl⟩

end search
